import Mathlib

/-!
Shallow embedding of the generic pattern-matching engine in
`src/src/expr/core.rs`: the five-variant expression tree `CoreExpr`, the
Thompson-style compiler (`Matcher::new` / `expand`), and the epsilon-closure
NFA simulator (`Matcher::match_sequence`).

The Rust code is generic over a `TerminalMatcher` trait with an associated
`Terminal` type; here the matcher type `M` and terminal type `T` are type
parameters and the trait method `matches` is a function `mat : M → T → Bool`
passed explicitly.  `BTreeSet<usize>` becomes `Finset Nat`;
`BTreeMap<usize, &T>` (keyed by target state, values overwritten on key
collision by `insert`) becomes an association list with an overwriting
insert.  `Vec<TransitionFunc>` becomes `List (TransitionFunc M)`;
out-of-range indexing (a panic in Rust) is modelled by `List.getD` with the
empty transition function as default, and is proved unreachable for
compiled automata.
-/

namespace GenericRegex

variable {T M : Type}

/-- One state's transitions (`TransitionFunc`, core.rs lines 30-34):
`terminals` maps a target state index to the matcher guarding the edge
(a `BTreeMap`, so a second insert with the same target key overwrites the
matcher), `epsilons` is the set of unconditional target states. -/
structure TransitionFunc (M : Type) where
  terminals : List (Nat × M)
  epsilons : Finset Nat

instance : Inhabited (TransitionFunc M) :=
  ⟨⟨[], ∅⟩⟩

/-- `BTreeMap::insert`: replace the value at an existing key, otherwise add
the binding.  Keys stay unique if they were unique before. -/
def btreeInsert (k : Nat) (v : M) : List (Nat × M) → List (Nat × M)
  | [] => [(k, v)]
  | (k', v') :: rest =>
      if k' = k then (k, v) :: rest else (k', v') :: btreeInsert k v rest

/-- `TransitionFunc::get_terminal_transitions` (core.rs lines 37-42): the
set of target states whose guarding matcher accepts the terminal. -/
def get_terminal_transitions (mat : M → T → Bool) (tf : TransitionFunc M)
    (t : T) : Finset Nat :=
  (tf.terminals.filterMap (fun p => if mat p.2 t then some p.1 else none)).toFinset

/-- The compiled automaton (`Matcher`, core.rs lines 45-50): an arena of
transition functions indexed by state number, plus the distinguished
`start_state` and `end_state` indices. -/
structure Matcher (M : Type) where
  transition_funcs : List (TransitionFunc M)
  start_state : Nat
  end_state : Nat

/-- `Matcher::create_new_state` (core.rs lines 67-74), acting on the arena:
append an empty transition function and return the new arena together with
the index of the new state. -/
def create_new_state (l : List (TransitionFunc M)) :
    List (TransitionFunc M) × Nat :=
  (l ++ [default], l.length)

/-- Update the transition function stored at index `i` of the arena. -/
def updateTF (l : List (TransitionFunc M)) (i : Nat)
    (f : TransitionFunc M → TransitionFunc M) : List (TransitionFunc M) :=
  l.set i (f (l.getD i default))

/-- `self.transition_funcs[src].terminals.insert(dst, tm)` (core.rs line 79). -/
def addTerminal (l : List (TransitionFunc M)) (src dst : Nat) (tm : M) :
    List (TransitionFunc M) :=
  updateTF l src (fun tf => { tf with terminals := btreeInsert dst tm tf.terminals })

/-- `self.transition_funcs[src].epsilons.insert(dst)` (core.rs lines 88, 96, 97, 101). -/
def addEpsilon (l : List (TransitionFunc M)) (src dst : Nat) :
    List (TransitionFunc M) :=
  updateTF l src (fun tf => { tf with epsilons := insert dst tf.epsilons })

/-- The expression tree (`CoreExpr`, core.rs lines 11-18). -/
inductive CoreExpr (M : Type) where
  | Terminal : M → CoreExpr M
  | Sequence : List (CoreExpr M) → CoreExpr M
  | Choice : List (CoreExpr M) → CoreExpr M
  | Repeat : CoreExpr M → CoreExpr M
  | Null : CoreExpr M

mutual

/-- `Matcher::expand` (core.rs lines 76-104), acting on the arena of
transition functions (the only field the Rust method mutates). -/
def expand : CoreExpr M → Nat → Nat → List (TransitionFunc M) → List (TransitionFunc M)
  | .Terminal tm, s, e, l => addTerminal l s e tm
  | .Sequence exprs, s, e, l =>
      let r := expandSeq exprs s l
      addEpsilon r.1 r.2 e
  | .Choice exprs, s, e, l => expandChoice exprs s e l
  | .Repeat ex, s, e, l => expand ex s e (addEpsilon (addEpsilon l s e) e s)
  | .Null, s, e, l => addEpsilon l s e

/-- The `for` loop of the `Sequence` arm (core.rs lines 82-87): thread the
elements through freshly created states, returning the final arena and the
last `prev_state`. -/
def expandSeq : List (CoreExpr M) → Nat → List (TransitionFunc M) → List (TransitionFunc M) × Nat
  | [], prev, l => (l, prev)
  | ex :: rest, prev, l =>
      let c := create_new_state l
      expandSeq rest c.2 (expand ex prev c.2 c.1)

/-- The `for` loop of the `Choice` arm (core.rs lines 91-93): expand every
alternative between the same entry and exit states. -/
def expandChoice : List (CoreExpr M) → Nat → Nat → List (TransitionFunc M) → List (TransitionFunc M)
  | [], _, _, l => l
  | ex :: rest, s, e, l => expandChoice rest s e (expand ex s e l)

end

/-- `Matcher::new` (core.rs lines 53-65): create the start state (index 0)
and end state (index 1), then expand the expression between them. -/
def Matcher.new (expr : CoreExpr M) : Matcher M :=
  let c1 := create_new_state ([] : List (TransitionFunc M))
  let c2 := create_new_state c1.1
  { transition_funcs := expand expr c1.2 c2.2 c2.1
    start_state := 0
    end_state := 1 }

/-- `CoreExpr::compile` (core.rs lines 21-23). -/
def CoreExpr.compile (expr : CoreExpr M) : Matcher M :=
  Matcher.new expr

/-- One round of the epsilon-expansion loop body (core.rs lines 112-115):
the union over the current states of their epsilon successors. -/
def epsStepSet (m : Matcher M) (states : Finset Nat) : Finset Nat :=
  states.biUnion (fun s => (m.transition_funcs.getD s default).epsilons)

/-- The union of every epsilon-transition target stored anywhere in the
arena; a bound on what the epsilon-expansion loop can ever add. -/
def allEps (m : Matcher M) : Finset Nat :=
  (m.transition_funcs.map TransitionFunc.epsilons).foldr (· ∪ ·) ∅

/-- The `loop` of `extend_epsilons` (core.rs lines 111-120), with explicit
fuel: compute the one-step epsilon successors; if they are already
contained, stop, otherwise add them and iterate. -/
def extendEpsilonsAux (m : Matcher M) : Nat → Finset Nat → Finset Nat
  | 0, states => states
  | fuel + 1, states =>
      let ns := epsStepSet m states
      if ns ⊆ states then states else extendEpsilonsAux m fuel (states ∪ ns)

/-- `extend_epsilons` (core.rs lines 108-121).  Each non-final round adds at
least one state drawn from `allEps m`, so `(allEps m).card + 1` rounds of
fuel always reach the loop's exit condition (proved in
`extend_epsilons_fixpoint`). -/
def extend_epsilons (m : Matcher M) (states : Finset Nat) : Finset Nat :=
  extendEpsilonsAux m ((allEps m).card + 1) states

/-- The simulation loop of `match_sequence` (core.rs lines 125-138),
including the early `return false` when the active set is empty. -/
def matchLoop (mat : M → T → Bool) (m : Matcher M) : List T → Finset Nat → Bool
  | [], states => decide (m.end_state ∈ states)
  | t :: rest, states =>
      if states = ∅ then false
      else
        matchLoop mat m rest
          (extend_epsilons m
            (states.biUnion
              (fun s => get_terminal_transitions mat (m.transition_funcs.getD s default) t)))

/-- `Matcher::match_sequence` (core.rs lines 106-139): the active set starts
as `{0}` (no epsilon expansion is performed before the loop), and after the
input is consumed the verdict is membership of `end_state`. -/
def match_sequence (mat : M → T → Bool) (m : Matcher M) (str : List T) : Bool :=
  matchLoop mat m str {0}

/-- Reference simulator for the short-circuit claim: the same loop with the
emptiness early-out removed, scanning the entire input unconditionally. -/
def matchLoopRef (mat : M → T → Bool) (m : Matcher M) : List T → Finset Nat → Bool
  | [], states => decide (m.end_state ∈ states)
  | t :: rest, states =>
      matchLoopRef mat m rest
        (extend_epsilons m
          (states.biUnion
            (fun s => get_terminal_transitions mat (m.transition_funcs.getD s default) t)))

/-- Reference entry point: simulate without ever short-circuiting. -/
def match_sequence_ref (mat : M → T → Bool) (m : Matcher M) (str : List T) : Bool :=
  matchLoopRef mat m str {0}

/-- One epsilon-transition step: state `y` is an epsilon successor of
state `x` in the automaton's arena. -/
def epsRel (m : Matcher M) (x y : Nat) : Prop :=
  y ∈ (m.transition_funcs.getD x default).epsilons

/-- Every state index stored anywhere in the arena as a terminal-transition
or epsilon-transition target is below the bound `n`. -/
def TargBound (l : List (TransitionFunc M)) (n : Nat) : Prop :=
  ∀ tf ∈ l, (∀ p ∈ tf.terminals, p.1 < n) ∧ ∀ x ∈ tf.epsilons, x < n

/-- Every stored transition target of the automaton is a valid index into
its own arena. -/
def ValidMatcher (m : Matcher M) : Prop :=
  TargBound m.transition_funcs m.transition_funcs.length

/-- One iteration of the simulation loop (core.rs lines 129-135): terminal
transitions out of every active state, followed by epsilon expansion. -/
def stepStates (mat : M → T → Bool) (m : Matcher M) (states : Finset Nat) (t : T) :
    Finset Nat :=
  extend_epsilons m
    (states.biUnion
      (fun s => get_terminal_transitions mat (m.transition_funcs.getD s default) t))

/-- The active state set of the simulator after consuming the input, seeded
with `{0}` as in core.rs lines 123-124. -/
def activeSet (mat : M → T → Bool) (m : Matcher M) (str : List T) : Finset Nat :=
  str.foldl (stepStates mat m) {0}

/-- The character front-end's matcher for a literal character
(`CharRule::Char`, char.rs lines 19-26), used for concrete scenarios. -/
def charMatches (m t : Char) : Bool :=
  t == m

@[simp] theorem default_terminals : (default : TransitionFunc M).terminals = [] :=
  rfl

@[simp] theorem default_epsilons : (default : TransitionFunc M).epsilons = ∅ :=
  rfl

/-- C6: for every expression, the simulator rejects the empty input: the
loop body never runs, so the final membership check sees the initial active
set `{0}`, which cannot contain the end state `1` (start and end are the
distinct indices 0 and 1, and no epsilon expansion happens before the
check). -/
theorem empty_input_always_rejected (mat : M → T → Bool) (e : CoreExpr M) :
    match_sequence mat e.compile [] = false ∧
      e.compile.start_state = 0 ∧ e.compile.end_state = 1 :=
  ⟨rfl, rfl, rfl⟩

/-- C1: contrary to the claim, no epsilon-closure of `{start}` is taken
before the input loop, so both `Repeat (Terminal 'a')` and `Null` reject
the empty sequence, even though the same `Repeat` automaton accepts a
non-empty repetition. -/
theorem no_initial_closure_bug :
    match_sequence charMatches (CoreExpr.compile (.Repeat (.Terminal 'a'))) [] = false ∧
      match_sequence charMatches (CoreExpr.compile .Null) [] = false ∧
      match_sequence charMatches (CoreExpr.compile (.Repeat (.Terminal 'a'))) ['a'] = true := by
  decide

/-- C3: `Null` compiles to a single epsilon edge from start to end, but
since the simulator never expands epsilons before consuming input, `Null`
rejects the empty sequence (it does reject non-empty sequences, so the
claimed equivalence fails exactly at the empty input). -/
theorem null_rejects_empty_bug :
    match_sequence charMatches (CoreExpr.compile .Null) [] = false ∧
      match_sequence charMatches (CoreExpr.compile .Null) ['a'] = false := by
  decide

/-- C5: the `n = 0` instance of the repetition-closure claim fails:
`Terminal 'a'` matches `['a']` (a non-empty sequence), yet
`Repeat (Terminal 'a')` rejects `['a']` repeated zero times, i.e. the
empty sequence. -/
theorem repeat_power_zero_bug :
    match_sequence charMatches (CoreExpr.compile (.Terminal 'a')) ['a'] = true ∧
      ['a'] ≠ ([] : List Char) ∧
      match_sequence charMatches (CoreExpr.compile (.Repeat (.Terminal 'a')))
        (List.flatten (List.replicate 0 ['a'])) = false := by
  decide

/-- C2: the choice distribution law fails: both alternatives of
`Choice [Terminal 'a', Terminal 'b']` store their terminal transition under
the same `BTreeMap` key (the shared target state 1), so the second insert
overwrites the first and the compiled automaton rejects `"a"` although
`Terminal 'a'` alone accepts it. -/
theorem choice_overwrite_bug :
    match_sequence charMatches
        (CoreExpr.compile (.Choice [.Terminal 'a', .Terminal 'b'])) ['a'] ≠
      (match_sequence charMatches (CoreExpr.compile (.Terminal 'a')) ['a'] ||
        match_sequence charMatches (CoreExpr.compile (.Terminal 'b')) ['a']) := by
  decide

/-- C4: the split characterisation of `Sequence` fails on the code:
`Sequence [Terminal 'a', Repeat (Terminal 'b')]` accepts `['a']`, but the
only two splits of `['a']` are `[] ++ ['a']` and `['a'] ++ []`, and neither
has both halves accepted, because `Terminal 'a'` rejects `[]` and (by the
missing initial epsilon-closure) `Repeat (Terminal 'b')` also rejects `[]`. -/
theorem sequence_split_bug :
    match_sequence charMatches
        (CoreExpr.compile (.Sequence [.Terminal 'a', .Repeat (.Terminal 'b')])) ['a'] = true ∧
      match_sequence charMatches (CoreExpr.compile (.Terminal 'a')) [] = false ∧
      match_sequence charMatches (CoreExpr.compile (.Repeat (.Terminal 'b'))) [] = false ∧
      match_sequence charMatches (CoreExpr.compile (.Repeat (.Terminal 'b'))) ['a'] = false := by
  decide

theorem epsStepSet_empty (m : Matcher M) : epsStepSet m ∅ = ∅ := by
  simp [epsStepSet]

theorem extendEpsilonsAux_empty (m : Matcher M) (fuel : Nat) :
    extendEpsilonsAux m fuel ∅ = ∅ := by
  cases fuel with
  | zero => rfl
  | succ fuel => simp [extendEpsilonsAux, epsStepSet_empty]

theorem extend_epsilons_empty (m : Matcher M) : extend_epsilons m ∅ = ∅ :=
  extendEpsilonsAux_empty m _

theorem matchLoopRef_empty_states (mat : M → T → Bool) (m : Matcher M) (l : List T) :
    matchLoopRef mat m l ∅ = false := by
  induction l with
  | nil => simp [matchLoopRef]
  | cons t rest ih => simp [matchLoopRef, extend_epsilons_empty, ih]

theorem matchLoop_eq_ref (mat : M → T → Bool) (m : Matcher M) (l : List T) :
    ∀ states, matchLoop mat m l states = matchLoopRef mat m l states := by
  induction l with
  | nil => intro states; rfl
  | cons t rest ih =>
      intro states
      by_cases h : states = ∅
      · subst h
        simp [matchLoop, matchLoopRef, extend_epsilons_empty, matchLoopRef_empty_states]
      · simp [matchLoop, matchLoopRef, h, ih]

/-- C9: the short-circuiting simulator agrees with a reference simulator
that scans the whole input: once the active set is empty every further
step (terminal transitions of active states followed by epsilon expansion)
yields the empty set again, so the early `return false` never changes the
verdict. -/
theorem short_circuit_agrees (mat : M → T → Bool) (m : Matcher M) (str : List T) :
    match_sequence mat m str = match_sequence_ref mat m str ∧
      ∀ t : T,
        extend_epsilons m
            ((∅ : Finset Nat).biUnion
              (fun s => get_terminal_transitions mat (m.transition_funcs.getD s default) t)) =
          ∅ :=
  ⟨matchLoop_eq_ref mat m str {0}, fun _ => by simp [extend_epsilons_empty]⟩

theorem subset_foldr_union (l : List (Finset Nat)) (s : Finset Nat) (h : s ∈ l) :
    s ⊆ l.foldr (· ∪ ·) ∅ := by
  induction l with
  | nil => cases h
  | cons a rest ih =>
      rcases List.mem_cons.mp h with h1 | h2
      · subst h1; exact Finset.subset_union_left
      · exact (ih h2).trans Finset.subset_union_right

theorem getD_epsilons_subset_allEps (m : Matcher M) (i : Nat) :
    (m.transition_funcs.getD i default).epsilons ⊆ allEps m := by
  by_cases h : i < m.transition_funcs.length
  · apply subset_foldr_union
    rw [List.getD_eq_getElem _ _ h]
    exact List.mem_map_of_mem TransitionFunc.epsilons (List.getElem_mem h)
  · rw [List.getD_eq_default _ _ (Nat.le_of_not_lt h)]
    simp

theorem epsStepSet_subset_allEps (m : Matcher M) (s : Finset Nat) :
    epsStepSet m s ⊆ allEps m := by
  intro x hx
  obtain ⟨i, _, hmem⟩ := Finset.mem_biUnion.mp hx
  exact getD_epsilons_subset_allEps m i hmem

theorem extendEpsilonsAux_fixpoint (m : Matcher M) :
    ∀ (fuel : Nat) (s : Finset Nat), (allEps m \ s).card < fuel →
      epsStepSet m (extendEpsilonsAux m fuel s) ⊆ extendEpsilonsAux m fuel s := by
  intro fuel
  induction fuel with
  | zero => intro s h; exact absurd h (Nat.not_lt_zero _)
  | succ fuel ih =>
      intro s h
      rw [extendEpsilonsAux]
      by_cases hns : epsStepSet m s ⊆ s
      · simp [hns]
      · simp only [hns, if_false]
        apply ih
        obtain ⟨x, hx_ns, hx_not⟩ := Finset.not_subset.mp hns
        have hx_all : x ∈ allEps m := epsStepSet_subset_allEps m s hx_ns
        have hsub : allEps m \ (s ∪ epsStepSet m s) ⊂ allEps m \ s := by
          rw [Finset.ssubset_iff_of_subset
            (Finset.sdiff_subset_sdiff (Finset.Subset.refl _) Finset.subset_union_left)]
          exact ⟨x, Finset.mem_sdiff.mpr ⟨hx_all, hx_not⟩,
            fun hc => (Finset.mem_sdiff.mp hc).2 (Finset.mem_union_right _ hx_ns)⟩
        have := Finset.card_lt_card hsub
        omega

theorem extend_epsilons_fixpoint (m : Matcher M) (s : Finset Nat) :
    epsStepSet m (extend_epsilons m s) ⊆ extend_epsilons m s := by
  apply extendEpsilonsAux_fixpoint
  have : (allEps m \ s).card ≤ (allEps m).card := Finset.card_le_card Finset.sdiff_subset
  omega

theorem subset_extendEpsilonsAux (m : Matcher M) :
    ∀ (fuel : Nat) (s : Finset Nat), s ⊆ extendEpsilonsAux m fuel s := by
  intro fuel
  induction fuel with
  | zero => intro s; exact Finset.Subset.refl s
  | succ fuel ih =>
      intro s
      rw [extendEpsilonsAux]
      by_cases hns : epsStepSet m s ⊆ s
      · simp [hns]
      · simp only [hns, if_false]
        exact Finset.subset_union_left.trans (ih (s ∪ epsStepSet m s))

theorem extendEpsilonsAux_sound (m : Matcher M) :
    ∀ (fuel : Nat) (s : Finset Nat) (x : Nat), x ∈ extendEpsilonsAux m fuel s →
      ∃ y ∈ s, Relation.ReflTransGen (epsRel m) y x := by
  intro fuel
  induction fuel with
  | zero => intro s x hx; exact ⟨x, hx, Relation.ReflTransGen.refl⟩
  | succ fuel ih =>
      intro s x hx
      rw [extendEpsilonsAux] at hx
      by_cases hns : epsStepSet m s ⊆ s
      · rw [if_pos hns] at hx
        exact ⟨x, hx, Relation.ReflTransGen.refl⟩
      · rw [if_neg hns] at hx
        obtain ⟨y, hy, hr⟩ := ih (s ∪ epsStepSet m s) x hx
        rcases Finset.mem_union.mp hy with hy_s | hy_ns
        · exact ⟨y, hy_s, hr⟩
        · obtain ⟨z, hz, hmem⟩ := Finset.mem_biUnion.mp hy_ns
          exact ⟨z, hz, Relation.ReflTransGen.head hmem hr⟩

/-- C8: the epsilon-expansion loop terminates (with enough rounds its
result is a fixpoint of one-step epsilon expansion, which is exactly the
loop's exit condition), and its result is the set of states reachable from
the starting set by zero or more epsilon-transitions. -/
theorem extend_epsilons_closure (ex : CoreExpr M) (s : Finset Nat)
    (_hs : s ⊆ Finset.range ex.compile.transition_funcs.length) :
    epsStepSet ex.compile (extend_epsilons ex.compile s) ⊆
        extend_epsilons ex.compile s ∧
      ∀ x, x ∈ extend_epsilons ex.compile s ↔
        ∃ y ∈ s, Relation.ReflTransGen (epsRel ex.compile) y x := by
  refine ⟨extend_epsilons_fixpoint _ s, fun x => ⟨fun hx => extendEpsilonsAux_sound _ _ s x hx, ?_⟩⟩
  rintro ⟨y, hy, hr⟩
  induction hr with
  | refl => exact subset_extendEpsilonsAux _ _ s hy
  | tail _ hbc ih =>
      exact extend_epsilons_fixpoint _ s (Finset.mem_biUnion.mpr ⟨_, ih, hbc⟩)

/-- Witness for C8 at the automaton of `Repeat (Terminal 'a')` and the
starting set `{0}`. -/
theorem extend_epsilons_closure_witness :
    (({0} : Finset Nat) ⊆
        Finset.range
          (CoreExpr.compile (M := Char) (.Repeat (.Terminal 'a'))).transition_funcs.length) ∧
      (epsStepSet (CoreExpr.compile (M := Char) (.Repeat (.Terminal 'a')))
          (extend_epsilons (CoreExpr.compile (M := Char) (.Repeat (.Terminal 'a'))) {0}) ⊆
          extend_epsilons (CoreExpr.compile (M := Char) (.Repeat (.Terminal 'a'))) {0} ∧
        ∀ x, x ∈ extend_epsilons (CoreExpr.compile (M := Char) (.Repeat (.Terminal 'a'))) {0} ↔
          ∃ y ∈ ({0} : Finset Nat),
            Relation.ReflTransGen (epsRel (CoreExpr.compile (M := Char) (.Repeat (.Terminal 'a')))) y x) :=
  ⟨by decide, extend_epsilons_closure (.Repeat (.Terminal 'a')) {0} (by decide)⟩

/-- C7: a single-terminal pattern on a single-terminal input reproduces the
matcher verdict exactly: `match_sequence (compile (Terminal tm)) [t]`
equals `mat tm t` for every matcher value and terminal. -/
theorem terminal_match_agrees (mat : M → T → Bool) (tm : M) (t : T) :
    match_sequence mat (CoreExpr.compile (.Terminal tm)) [t] = mat tm t := by
  cases h : mat tm t <;>
    simp [match_sequence, matchLoop, CoreExpr.compile, Matcher.new, expand, addTerminal,
      updateTF, btreeInsert, create_new_state, get_terminal_transitions, extend_epsilons,
      extendEpsilonsAux, epsStepSet, allEps, h]

@[simp] theorem length_updateTF (l : List (TransitionFunc M)) (i : Nat)
    (f : TransitionFunc M → TransitionFunc M) :
    (updateTF l i f).length = l.length := by
  simp [updateTF]

@[simp] theorem length_addTerminal (l : List (TransitionFunc M)) (src dst : Nat) (tm : M) :
    (addTerminal l src dst tm).length = l.length := by
  simp [addTerminal]

@[simp] theorem length_addEpsilon (l : List (TransitionFunc M)) (src dst : Nat) :
    (addEpsilon l src dst).length = l.length := by
  simp [addEpsilon]

@[simp] theorem length_create_new_state (l : List (TransitionFunc M)) :
    (create_new_state l).1.length = l.length + 1 := by
  simp [create_new_state]

mutual

theorem len_le_expand (ex : CoreExpr M) (s e : Nat) (l : List (TransitionFunc M)) :
    l.length ≤ (expand ex s e l).length := by
  cases ex with
  | Terminal tm => simp [expand]
  | Sequence exprs =>
      have h := len_le_expandSeq exprs s l
      simp only [expand, length_addEpsilon]
      exact h
  | Choice exprs =>
      simp only [expand]
      exact len_le_expandChoice exprs s e l
  | Repeat ex =>
      have h := len_le_expand ex s e (addEpsilon (addEpsilon l s e) e s)
      simp only [expand]
      simp only [length_addEpsilon] at h
      exact h
  | Null => simp [expand]

theorem len_le_expandSeq (exprs : List (CoreExpr M)) (prev : Nat)
    (l : List (TransitionFunc M)) :
    l.length ≤ (expandSeq exprs prev l).1.length := by
  cases exprs with
  | nil => simp [expandSeq]
  | cons ex rest =>
      have h1 := len_le_expand ex prev (create_new_state l).2 (create_new_state l).1
      have h2 := len_le_expandSeq rest (create_new_state l).2
        (expand ex prev (create_new_state l).2 (create_new_state l).1)
      simp only [expandSeq]
      simp only [length_create_new_state] at h1
      omega

theorem len_le_expandChoice (exprs : List (CoreExpr M)) (s e : Nat)
    (l : List (TransitionFunc M)) :
    l.length ≤ (expandChoice exprs s e l).length := by
  cases exprs with
  | nil => simp [expandChoice]
  | cons ex rest =>
      have h1 := len_le_expand ex s e l
      have h2 := len_le_expandChoice rest s e (expand ex s e l)
      simp only [expandChoice]
      omega

end

theorem mem_btreeInsert {k : Nat} {v : M} {p : Nat × M} :
    ∀ {l : List (Nat × M)}, p ∈ btreeInsert k v l → p = (k, v) ∨ p ∈ l := by
  intro l
  induction l with
  | nil => intro h; simpa [btreeInsert] using h
  | cons a rest ih =>
      obtain ⟨k', v'⟩ := a
      intro h
      rw [btreeInsert] at h
      by_cases hk : k' = k
      · rw [if_pos hk] at h
        rcases List.mem_cons.mp h with h1 | h1
        · exact Or.inl h1
        · exact Or.inr (List.mem_cons_of_mem _ h1)
      · rw [if_neg hk] at h
        rcases List.mem_cons.mp h with h1 | h1
        · exact Or.inr (h1 ▸ List.mem_cons_self _ _)
        · rcases ih h1 with h2 | h2
          · exact Or.inl h2
          · exact Or.inr (List.mem_cons_of_mem _ h2)

theorem targBound_getD {l : List (TransitionFunc M)} {n : Nat} (hb : TargBound l n)
    (i : Nat) :
    (∀ p ∈ (l.getD i default).terminals, p.1 < n) ∧
      ∀ x ∈ (l.getD i default).epsilons, x < n := by
  by_cases h : i < l.length
  · rw [List.getD_eq_getElem _ _ h]
    exact hb _ (List.getElem_mem h)
  · rw [List.getD_eq_default _ _ (Nat.le_of_not_lt h)]
    simp

theorem targBound_addTerminal {l : List (TransitionFunc M)} {n : Nat} (src dst : Nat)
    (tm : M) (hb : TargBound l n) (hdst : dst < n) :
    TargBound (addTerminal l src dst tm) n := by
  intro tf htf
  simp only [addTerminal, updateTF] at htf
  rcases List.mem_or_eq_of_mem_set htf with h | h
  · exact hb tf h
  · subst h
    refine ⟨fun p hp => ?_, (targBound_getD hb src).2⟩
    rcases mem_btreeInsert hp with h1 | h1
    · simp [h1, hdst]
    · exact (targBound_getD hb src).1 p h1

theorem targBound_addEpsilon {l : List (TransitionFunc M)} {n : Nat} (src dst : Nat)
    (hb : TargBound l n) (hdst : dst < n) :
    TargBound (addEpsilon l src dst) n := by
  intro tf htf
  simp only [addEpsilon, updateTF] at htf
  rcases List.mem_or_eq_of_mem_set htf with h | h
  · exact hb tf h
  · subst h
    refine ⟨(targBound_getD hb src).1, fun x hx => ?_⟩
    rcases Finset.mem_insert.mp hx with h1 | h1
    · exact h1 ▸ hdst
    · exact (targBound_getD hb src).2 x h1

theorem targBound_append_default {l : List (TransitionFunc M)} {n : Nat}
    (hb : TargBound l n) : TargBound (l ++ [default]) n := by
  intro tf htf
  rcases List.mem_append.mp htf with h | h
  · exact hb tf h
  · rcases List.mem_singleton.mp h with h1
    subst h1
    simp

mutual

theorem targBound_expand (ex : CoreExpr M) (s e n : Nat) (l : List (TransitionFunc M))
    (hlen : (expand ex s e l).length ≤ n) (hb : TargBound l n) (hs : s < n)
    (he : e < n) : TargBound (expand ex s e l) n := by
  cases ex with
  | Terminal tm =>
      simp only [expand]
      exact targBound_addTerminal s e tm hb he
  | Null =>
      simp only [expand]
      exact targBound_addEpsilon s e hb he
  | Repeat ex =>
      simp only [expand]
      simp only [expand] at hlen
      exact targBound_expand ex s e n _ hlen
        (targBound_addEpsilon e s (targBound_addEpsilon s e hb he) hs) hs he
  | Choice exprs =>
      simp only [expand]
      simp only [expand] at hlen
      exact targBound_expandChoice exprs s e n l hlen hb hs he
  | Sequence exprs =>
      simp only [expand]
      simp only [expand, length_addEpsilon] at hlen
      exact targBound_addEpsilon _ e (targBound_expandSeq exprs s n l hlen hb hs) he

theorem targBound_expandSeq (exprs : List (CoreExpr M)) (prev n : Nat)
    (l : List (TransitionFunc M)) (hlen : (expandSeq exprs prev l).1.length ≤ n)
    (hb : TargBound l n) (hprev : prev < n) :
    TargBound (expandSeq exprs prev l).1 n := by
  cases exprs with
  | nil =>
      simp only [expandSeq]
      exact hb
  | cons ex rest =>
      simp only [expandSeq] at hlen ⊢
      have g1 := len_le_expand ex prev (create_new_state l).2 (create_new_state l).1
      have g2 := len_le_expandSeq rest (create_new_state l).2
        (expand ex prev (create_new_state l).2 (create_new_state l).1)
      have hexp_len : (expand ex prev (create_new_state l).2 (create_new_state l).1).length ≤ n :=
        le_trans g2 hlen
      have hfresh : (create_new_state l).2 < n := by
        simp only [length_create_new_state] at g1
        simp only [create_new_state]
        omega
      exact targBound_expandSeq rest (create_new_state l).2 n _ hlen
        (targBound_expand ex prev (create_new_state l).2 n (create_new_state l).1 hexp_len
          (by
            simp only [create_new_state]
            exact targBound_append_default hb)
          hprev hfresh)
        hfresh

theorem targBound_expandChoice (exprs : List (CoreExpr M)) (s e n : Nat)
    (l : List (TransitionFunc M)) (hlen : (expandChoice exprs s e l).length ≤ n)
    (hb : TargBound l n) (hs : s < n) (he : e < n) :
    TargBound (expandChoice exprs s e l) n := by
  cases exprs with
  | nil =>
      simp only [expandChoice]
      exact hb
  | cons ex rest =>
      simp only [expandChoice] at hlen ⊢
      exact targBound_expandChoice rest s e n _ hlen
        (targBound_expand ex s e n l (le_trans (len_le_expandChoice rest s e _) hlen) hb hs he)
        hs he

end

theorem compile_transition_funcs (ex : CoreExpr M) :
    ex.compile.transition_funcs = expand ex 0 1 [default, default] := by
  simp [CoreExpr.compile, Matcher.new, create_new_state]

theorem two_le_compile_length (ex : CoreExpr M) :
    2 ≤ ex.compile.transition_funcs.length := by
  rw [compile_transition_funcs]
  exact len_le_expand ex 0 1 [default, default]

theorem targBound_start_arena {n : Nat} :
    TargBound ([default, default] : List (TransitionFunc M)) n := by
  intro tf htf
  have htf' : tf = default := by
    rcases List.mem_cons.mp htf with h | h
    · exact h
    · simpa using h
  subst htf'
  simp

theorem validMatcher_compile (ex : CoreExpr M) : ValidMatcher ex.compile := by
  show TargBound _ _
  rw [compile_transition_funcs]
  have h2 := len_le_expand ex 0 1 ([default, default] : List (TransitionFunc M))
  exact targBound_expand ex 0 1 _ _ (le_refl _) targBound_start_arena
    (by simp at h2; omega) (by simp at h2; omega)

theorem getTT_subset_range (mat : M → T → Bool) (m : Matcher M) (hv : ValidMatcher m)
    (i : Nat) (t : T) :
    get_terminal_transitions mat (m.transition_funcs.getD i default) t ⊆
      Finset.range m.transition_funcs.length := by
  intro x hx
  simp only [get_terminal_transitions, List.mem_toFinset, List.mem_filterMap] at hx
  obtain ⟨p, hp, hsome⟩ := hx
  rw [Finset.mem_range]
  by_cases hm : mat p.2 t
  · rw [if_pos hm, Option.some.injEq] at hsome
    exact hsome ▸ (targBound_getD hv i).1 p hp
  · rw [if_neg hm] at hsome
    exact absurd hsome (Option.noConfusion)

theorem epsStepSet_subset_range (m : Matcher M) (hv : ValidMatcher m) (s : Finset Nat) :
    epsStepSet m s ⊆ Finset.range m.transition_funcs.length := by
  intro x hx
  obtain ⟨i, _, hmem⟩ := Finset.mem_biUnion.mp hx
  exact Finset.mem_range.mpr ((targBound_getD hv i).2 x hmem)

theorem extendEpsilonsAux_subset_range (m : Matcher M) (hv : ValidMatcher m) :
    ∀ (fuel : Nat) (s : Finset Nat), s ⊆ Finset.range m.transition_funcs.length →
      extendEpsilonsAux m fuel s ⊆ Finset.range m.transition_funcs.length := by
  intro fuel
  induction fuel with
  | zero => intro s hs; exact hs
  | succ fuel ih =>
      intro s hs
      rw [extendEpsilonsAux]
      by_cases hns : epsStepSet m s ⊆ s
      · simp only [hns, if_true]
        exact hs
      · simp only [hns, if_false]
        exact ih _ (Finset.union_subset hs (epsStepSet_subset_range m hv s))

theorem stepStates_subset_range (mat : M → T → Bool) (m : Matcher M)
    (hv : ValidMatcher m) (s : Finset Nat) (t : T) :
    stepStates mat m s t ⊆ Finset.range m.transition_funcs.length := by
  apply extendEpsilonsAux_subset_range m hv
  exact Finset.biUnion_subset.mpr fun i _ => getTT_subset_range mat m hv i t

theorem foldl_stepStates_subset_range (mat : M → T → Bool) (m : Matcher M)
    (hv : ValidMatcher m) :
    ∀ (str : List T) (s : Finset Nat), s ⊆ Finset.range m.transition_funcs.length →
      str.foldl (stepStates mat m) s ⊆ Finset.range m.transition_funcs.length := by
  intro str
  induction str with
  | nil => intro s hs; exact hs
  | cons t rest ih =>
      intro s _
      rw [List.foldl_cons]
      exact ih _ (stepStates_subset_range mat m hv s t)

theorem matchLoopRef_foldl (mat : M → T → Bool) (m : Matcher M) :
    ∀ (l : List T) (states : Finset Nat),
      matchLoopRef mat m l states =
        decide (m.end_state ∈ l.foldl (stepStates mat m) states) := by
  intro l
  induction l with
  | nil => intro states; rfl
  | cons t rest ih =>
      intro states
      rw [matchLoopRef, List.foldl_cons, ih]
      rfl

theorem match_sequence_ref_eq_activeSet (mat : M → T → Bool) (m : Matcher M)
    (str : List T) :
    match_sequence_ref mat m str = decide (m.end_state ∈ activeSet mat m str) :=
  matchLoopRef_foldl mat m str {0}

/-- C10: every transition target stored by the compiler is a valid index
into the arena, and every active-state set the simulator ever indexes with
stays inside the arena, so the simulator's arena indexing is always in
bounds for compiled automata. -/
theorem compile_arena_safe (mat : M → T → Bool) (ex : CoreExpr M) (str : List T) :
    ValidMatcher ex.compile ∧
      activeSet mat ex.compile str ⊆ Finset.range ex.compile.transition_funcs.length := by
  refine ⟨validMatcher_compile ex, ?_⟩
  apply foldl_stepStates_subset_range mat _ (validMatcher_compile ex)
  intro x hx
  rw [Finset.mem_singleton.mp hx, Finset.mem_range]
  have := two_le_compile_length ex
  omega

end GenericRegex
